import Mathlib

/-!
Verification of the rate-limited concurrent batch dispatcher
`rpmControlledBatch` of `src/AINaming/geminiCaller.mjs` (sliding-window
variant), together with the fixed-bucket variant found in the repository's
source lineage.

The JavaScript dispatcher is embedded as a labeled transition system:
each state records the current clock, the request-timestamp window
(`requestTimestamps`), the pending task queue (`taskQueue`), the tasks
admitted by `processQueue` but not yet past `acquireRateLimitSlot`, the
tasks currently awaiting `asyncFn`, the `activeTaskCount` counter, the
`results` array, and (as ghost data) the list of instants at which a
rate-limit slot was recorded.  The pure helpers (`getTimeUntilNextSlot`,
the 429 retry-delay parsing, the result encoding) are translated directly
from the source.
-/

namespace RpmBatch

/-- Minimal model of the JavaScript values flowing through the dispatcher:
numbers, strings, booleans, `null`/`undefined` (both collapsed to `vnull`),
and objects as association lists of fields. -/
inductive JsVal where
  | vnum (n : Int)
  | vstr (s : String)
  | vbool (b : Bool)
  | vnull
  | vobj (fields : List (String × JsVal))

/-- JavaScript truthiness for the modelled values: `0`, the empty string,
`false` and `null`/`undefined` are falsy, every object is truthy. -/
def jsTruthy : JsVal → Bool
  | .vnum n => n != 0
  | .vstr s => s != ""
  | .vbool b => b
  | .vnull => false
  | .vobj _ => true

/-- One entry of `error.errorDetails`, keeping the two fields the code
inspects: `@type` (modelled as a string when present) and `retryDelay`
(an arbitrary value when present; `none` models an absent field). -/
structure RetryDetail where
  atType : Option String
  retryDelay : Option JsVal

/-- The error thrown by a task, as far as the dispatcher inspects it:
its `status` field, its `errorDetails` field, and `raw`, the thrown value
itself (the thing stored in `{ error }`).  `status`/`errorDetails` mirror
the corresponding fields of `raw`; they are kept separately so the
throttle logic can read them without a full object semantics. -/
structure GError where
  status : Option Int
  errorDetails : Option (List RetryDetail)
  raw : JsVal

/-- Does `pat` occur as a contiguous run inside `l`? -/
def seqContains (l pat : List Char) : Bool :=
  match l with
  | [] => pat.isEmpty
  | _ :: t => pat.isPrefixOf l || seqContains t pat

/-- Substring test, modelling JavaScript `String.prototype.includes`. -/
def containsSub (s pat : String) : Bool := seqContains s.toList pat.toList

/-- Remove the first occurrence of a character from a character list. -/
def removeFirstChar (c : Char) : List Char → List Char
  | [] => []
  | x :: xs => if x = c then xs else x :: removeFirstChar c xs

/-- `retryDelay.replace('s', '')`: JavaScript `replace` with a string
pattern replaces only the first occurrence. -/
def jsReplaceFirstS (s : String) : String := ⟨removeFirstChar 's' s.toList⟩

/-- Value of a list of decimal digits. -/
def digitsToInt (ds : List Char) : Int :=
  ds.foldl (fun a c => a * 10 + ((c.toNat : Int) - 48)) 0

/-- Leading-digit parse: `some` of the value of the maximal leading run of
digits, `none` when there is no leading digit. -/
def parseLeadingDigits (cs : List Char) : Option Int :=
  let ds := cs.takeWhile Char.isDigit
  if ds.isEmpty then none else some (digitsToInt ds)

/-- JavaScript `parseInt` on the strings the code feeds it: skip leading
whitespace, an optional sign, then the maximal run of decimal digits;
`none` models `NaN`.  (Hexadecimal `0x` prefixes are not modelled.) -/
def jsParseInt (s : String) : Option Int :=
  match s.toList.dropWhile Char.isWhitespace with
  | '-' :: rest => (parseLeadingDigits rest).map (fun v => -v)
  | '+' :: rest => parseLeadingDigits rest
  | cs => parseLeadingDigits cs

/-- `error.errorDetails.find(d => d['@type'] && d['@type'].includes('RetryInfo'))`.
An absent `@type` is falsy; an empty string is falsy and also contains no
`"RetryInfo"`, so the truthiness test is absorbed by the substring test. -/
def findRetryInfo (details : List RetryDetail) : Option RetryDetail :=
  details.find? (fun d =>
    match d.atType with
    | some s => containsSub s "RetryInfo"
    | none => false)

/-- The cooldown the 429 handler of `executeTask` derives from a task
error: `some D` when it pushes blocking timestamps corresponding to a
delay of `D` milliseconds, `none` when it pushes nothing.
Translated from `geminiCaller.mjs` lines 199–226:
* the handler runs only when `error.status === 429` and `errorDetails`
  is present;
* when a `RetryInfo` detail with a truthy `retryDelay` exists and
  `retryDelay` is a string, `parseInt(retryDelay.replace('s','')) * 1000`
  is used, but only when that value is positive (`NaN` and non-positive
  values yield nothing);
* when `retryDelay` is truthy but not a string, `.replace` throws, the
  `catch` block runs, and the default 30000 ms cooldown is used;
* in every other case (no `RetryInfo` detail, absent or falsy
  `retryDelay`, unparsable digits) nothing is pushed — no default. -/
def cooldownDelay (e : GError) : Option Int :=
  if e.status = some 429 ∧ e.errorDetails.isSome then
    match findRetryInfo (e.errorDetails.getD []) with
    | none => none
    | some d =>
      match d.retryDelay with
      | none => none
      | some v =>
        if jsTruthy v then
          match v with
          | .vstr s =>
            match jsParseInt (jsReplaceFirstS s) with
            | none => none
            | some k => if 0 < k * 1000 then some (k * 1000) else none
          | _ => some 30000
        else none
  else none

/-- `windowDuration = 60 * 1000`. -/
def windowDuration : Int := 60000

/-- The pruning step of `getTimeUntilNextSlot`:
`requestTimestamps.filter(ts => now - ts < windowDuration)`. -/
def pruneWindow (now : Int) (w : List Int) : List Int :=
  w.filter (fun ts => now - ts < windowDuration)

/-- Insertion into a sorted list; `push` followed by a numeric `sort`
keeps `requestTimestamps` sorted, which on a sorted list is exactly a
sorted insertion. -/
def insertSorted (t : Int) : List Int → List Int
  | [] => [t]
  | x :: xs => if t ≤ x then t :: x :: xs else x :: insertSorted t xs

/-- Push `n` copies of the blocking timestamp `b` and re-sort: the
`for (let i = 0; i < rpm; i++) requestTimestamps.push(blockingTimestamp)`
loop followed by `sort`. -/
def insertBlocking : Nat → Int → List Int → List Int
  | 0, _, w => w
  | n + 1, b, w => insertSorted b (insertBlocking n b w)

/-- `getTimeUntilNextSlot` of `geminiCaller.mjs` (lines 132–148).  It
mutates `requestTimestamps` by pruning, so the model returns the wait
time together with the pruned window.  When the pruned window still has
`rpm` or more entries, the wait is
`Math.max(0, (oldest + windowDuration) - now + 100)` with `oldest` the
head of the (sorted) window.  The `[]` case of the second branch is
unreachable for `rpm ≥ 1`; the code there reads `undefined`, producing a
`NaN` wait that every later `> 0` test treats as "no wait", which the
value `0` reproduces. -/
def waitFor (rpm now : Int) (pruned : List Int) : Int :=
  if (pruned.length : Int) < rpm then 0
  else
    match pruned with
    | [] => 0
    | oldest :: _ => max 0 (oldest + windowDuration - now + 100)

def getTimeUntilNextSlot (rpm now : Int) (w : List Int) : Int × List Int :=
  (waitFor rpm now (pruneWindow now w), pruneWindow now w)

/-- Outcome `asyncFn` produces for a given task: resolve with a value or
reject with an error. -/
inductive TaskOutcome where
  | ok (v : JsVal)
  | fail (e : GError)

/-- One batch's configuration: the effective `rpm` and `maxConcurrent`,
the batch size, whether `fnArgs[i]` passes the `Array.isArray` check, and
the outcome `asyncFn` produces for task `i`. -/
structure BatchConfig where
  rpm : Int
  maxConcurrent : Int
  numTasks : Nat
  argsOk : Nat → Bool
  fn : Nat → TaskOutcome

/-- `options.rpm || 10`: a falsy (`0` / absent) value is replaced by 10. -/
def effRpm (o : Option Int) : Int :=
  match o with
  | none => 10
  | some v => if v = 0 then 10 else v

/-- `options.maxConcurrent || rpm`. -/
def effMaxConcurrent (o : Option Int) (rpm : Int) : Int :=
  match o with
  | none => rpm
  | some v => if v = 0 then rpm else v

/-- `results[taskIndex] = { error }`: a failure is stored as an object
wrapping the thrown value under the `error` field. -/
def errWrap (v : JsVal) : JsVal := .vobj [("error", v)]

/-- The value thrown by the `Array.isArray` guard:
`new Error("任务参数必须是数组")`, modelled by its message. -/
def badArgsErrVal : JsVal := .vstr "任务参数必须是数组"

/-- `results[taskIndex] = await asyncFn(...args)`: a success is stored
raw, with no wrapper. -/
def storeSuccess (v : JsVal) : JsVal := v

/-- `results[taskIndex] = { error }` (lines 183 and 196). -/
def storeFailure (e : GError) : JsVal := errWrap e.raw

/-- The test `if (result.error)` used by `exampleRpmControlled` to decide
whether a stored result is a failure: truthiness of the `error` field. -/
def classifiedAsFailure (v : JsVal) : Bool :=
  match v with
  | .vobj fields =>
    match fields.find? (fun f => f.1 = "error") with
    | some f => jsTruthy f.2
    | none => false
  | _ => false

/-- The value the finished batch holds at index `i`: the raw resolved
value for a success, `{error}` wrappers for a rejection or for the
bad-arguments guard. -/
def expectedResult (cfg : BatchConfig) (i : Nat) : JsVal :=
  if cfg.argsOk i then
    match cfg.fn i with
    | .ok v => storeSuccess v
    | .fail e => storeFailure e
  else errWrap badArgsErrVal

/-- Dispatcher state.  `admitted` holds tasks popped by `processQueue`
(after `activeTaskCount++`) that have not yet passed
`acquireRateLimitSlot`; `invoking` holds tasks whose `asyncFn` call is in
flight; `active` is the `activeTaskCount` variable; `starts` is ghost
data recording every instant at which `acquireRateLimitSlot` recorded a
slot (immediately before calling `asyncFn`). -/
structure DState where
  time : Int
  window : List Int
  queue : List Nat
  admitted : List Nat
  invoking : List Nat
  active : Int
  results : List (Option JsVal)
  starts : List Int

/-- The state in which `rpmControlledBatch` begins at clock `t0`. -/
def initState (cfg : BatchConfig) (t0 : Int) : DState :=
  { time := t0
    window := []
    queue := List.range cfg.numTasks
    admitted := []
    invoking := []
    active := 0
    results := List.replicate cfg.numTasks none
    starts := [] }

/-- Transition labels. -/
inductive Lab where
  | tick (d : Int)
  | pruneCheck
  | admitTask (i : Nat)
  | badArgs (i : Nat)
  | acquire (i : Nat)
  | settle (i : Nat)

/-- Small-step semantics of the dispatcher.
* `tick`: the clock advances (all `setTimeout` waits are made of ticks).
* `pruneCheck`: `processQueue` calls `getTimeUntilNextSlot`, whose
  pruning mutates the window, without admitting (`waitTime > 0`).
* `admitTask`: one iteration of the `processQueue` loop: requires
  `activeTaskCount < maxConcurrent`, a non-empty queue and a zero wait;
  pops the queue head (FIFO), increments `activeTaskCount`, schedules
  `executeTask`.
* `badArgs`: `executeTask` fails the `Array.isArray` guard: records the
  error result and runs `completeTask` (decrement) without ever touching
  the rate window.
* `acquire`: the final, non-waiting round of `acquireRateLimitSlot`:
  requires a zero wait, prunes, records `Date.now()` into the sorted
  window, and `asyncFn` is invoked.
* `settleOk`/`settleErr`: the `asyncFn` promise settles; the result is
  stored at the task's own index and `completeTask` decrements the
  counter.  On an error, the 429 handler may push `rpm` blocking
  timestamps `now - windowDuration + delay` (see `cooldownDelay`). -/
inductive Step (cfg : BatchConfig) : DState → Lab → DState → Prop where
  | tick (s : DState) (d : Int) (hd : 0 < d) :
      Step cfg s (.tick d) { s with time := s.time + d }
  | pruneCheck (s : DState) :
      Step cfg s .pruneCheck
        { s with window := (getTimeUntilNextSlot cfg.rpm s.time s.window).2 }
  | admitTask (s : DState) (i : Nat) (rest : List Nat)
      (hq : s.queue = i :: rest)
      (hc : s.active < cfg.maxConcurrent)
      (hw : (getTimeUntilNextSlot cfg.rpm s.time s.window).1 ≤ 0) :
      Step cfg s (.admitTask i)
        { s with queue := rest
                 window := (getTimeUntilNextSlot cfg.rpm s.time s.window).2
                 admitted := s.admitted ++ [i]
                 active := s.active + 1 }
  | badArgs (s : DState) (i : Nat)
      (hm : i ∈ s.admitted) (ha : cfg.argsOk i = false) :
      Step cfg s (.badArgs i)
        { s with admitted := s.admitted.erase i
                 results := s.results.set i (some (errWrap badArgsErrVal))
                 active := s.active - 1 }
  | acquire (s : DState) (i : Nat)
      (hm : i ∈ s.admitted) (ha : cfg.argsOk i = true)
      (hw : (getTimeUntilNextSlot cfg.rpm s.time s.window).1 ≤ 0) :
      Step cfg s (.acquire i)
        { s with admitted := s.admitted.erase i
                 invoking := i :: s.invoking
                 window := insertSorted s.time
                   (getTimeUntilNextSlot cfg.rpm s.time s.window).2
                 starts := s.starts ++ [s.time] }
  | settleOk (s : DState) (i : Nat) (v : JsVal)
      (hm : i ∈ s.invoking) (hf : cfg.fn i = .ok v) :
      Step cfg s (.settle i)
        { s with invoking := s.invoking.erase i
                 results := s.results.set i (some (storeSuccess v))
                 active := s.active - 1 }
  | settleErr (s : DState) (i : Nat) (e : GError)
      (hm : i ∈ s.invoking) (hf : cfg.fn i = .fail e) :
      Step cfg s (.settle i)
        { s with invoking := s.invoking.erase i
                 results := s.results.set i (some (storeFailure e))
                 active := s.active - 1
                 window :=
                   match cooldownDelay e with
                   | some dl =>
                       insertBlocking cfg.rpm.toNat
                         (s.time - windowDuration + dl) s.window
                   | none => s.window }

/-- A finite run: `Trace cfg s ls s'` says the dispatcher can go from
`s` to `s'` through the labelled steps `ls`. -/
inductive Trace (cfg : BatchConfig) : DState → List Lab → DState → Prop where
  | nil (s : DState) : Trace cfg s [] s
  | cons {s s' s'' : DState} (l : Lab) {ls : List Lab}
      (h1 : Step cfg s l s') (h2 : Trace cfg s' ls s'') :
      Trace cfg s (l :: ls) s''

/-- Reachability in the dispatcher semantics. -/
def Reachable (cfg : BatchConfig) (s s' : DState) : Prop :=
  ∃ ls, Trace cfg s ls s'

/-- The completion condition of `rpmControlledBatch`: the waiting loop
`while (activeTaskCount > 0 || taskQueue.length > 0)` exits — no pending,
admitted or in-flight task remains. -/
def Final (s : DState) : Prop :=
  s.queue = [] ∧ s.admitted = [] ∧ s.invoking = []

/-- A complete run of `rpmControlledBatch` starting at clock `t0`. -/
def rpmControlledBatchRun (cfg : BatchConfig) (t0 : Int)
    (ls : List Lab) (s : DState) : Prop :=
  Trace cfg (initState cfg t0) ls s ∧ Final s

/-- `results[i]`, read with `none` out of range. -/
def resultAt (s : DState) (i : Nat) : Option JsVal := (s.results.getD i none)

/-! ## Basic step lemmas -/

theorem step_time_mono {cfg : BatchConfig} {s s' : DState} {l : Lab}
    (h : Step cfg s l s') : s.time ≤ s'.time := by
  cases h
  case tick d hd => show s.time ≤ s.time + d; omega
  all_goals exact le_refl _

theorem trace_time_mono {cfg : BatchConfig} {s s' : DState} {ls : List Lab}
    (h : Trace cfg s ls s') : s.time ≤ s'.time := by
  induction h with
  | nil => exact le_refl _
  | cons l h1 _h2 ih => exact le_trans (step_time_mono h1) ih

/-! ## The bookkeeping invariant behind the results array and the
active-task counter -/

/-- Invariant tying together the `results` array, the `activeTaskCount`
counter and the three task collections. -/
structure Inv (cfg : BatchConfig) (s : DState) : Prop where
  resLen : s.results.length = cfg.numTasks
  activeEq : s.active = s.admitted.length + s.invoking.length
  memBound : ∀ i, i ∈ s.queue ∨ i ∈ s.admitted ∨ i ∈ s.invoking →
    i < cfg.numTasks
  invokingOk : ∀ i ∈ s.invoking, cfg.argsOk i = true
  resStatus : ∀ i < cfg.numTasks,
    s.results[i]? = some (some (expectedResult cfg i)) ∨
      i ∈ s.queue ∨ i ∈ s.admitted ∨ i ∈ s.invoking

theorem inv_init (cfg : BatchConfig) (t0 : Int) :
    Inv cfg (initState cfg t0) := by
  refine ⟨?_, ?_, ?_, ?_, ?_⟩
  · simp [initState]
  · simp [initState]
  · intro i hi
    simp [initState] at hi
    simpa using hi
  · intro i hi
    simp [initState] at hi
  · intro i hi
    right; left
    simpa [initState] using hi

theorem inv_step {cfg : BatchConfig} {s s' : DState} {l : Lab}
    (hinv : Inv cfg s) (h : Step cfg s l s') : Inv cfg s' := by
  obtain ⟨resLen, activeEq, memBound, invokingOk, resStatus⟩ := hinv
  cases h with
  | tick d hd =>
    exact ⟨resLen, activeEq, memBound, invokingOk, resStatus⟩
  | pruneCheck =>
    exact ⟨resLen, activeEq, memBound, invokingOk, resStatus⟩
  | admitTask i rest hq hc hw =>
    refine ⟨resLen, ?_, ?_, invokingOk, ?_⟩
    · show s.active + 1 = ((s.admitted ++ [i]).length : Int) + s.invoking.length
      simp [activeEq]; omega
    · intro j hj
      apply memBound
      rcases hj with hj | hj | hj
      · exact Or.inl (by rw [hq]; exact List.mem_cons_of_mem _ hj)
      · simp at hj
        rcases hj with hj | hj
        · exact Or.inr (Or.inl hj)
        · exact Or.inl (by rw [hq, hj]; exact List.mem_cons_self _ _)
      · exact Or.inr (Or.inr hj)
    · intro j hj
      rcases resStatus j hj with hr | hr | hr | hr
      · exact Or.inl hr
      · rw [hq] at hr
        rcases List.mem_cons.mp hr with hr | hr
        · subst hr
          right; right; left; simp
        · right; left; exact hr
      · right; right; left; simp [hr]
      · right; right; right; exact hr
  | badArgs i hm ha =>
    refine ⟨by simpa using resLen, ?_, ?_, invokingOk, ?_⟩
    · have : (s.admitted.erase i).length = s.admitted.length - 1 :=
        List.length_erase_of_mem hm
      have hpos : 1 ≤ s.admitted.length := List.length_pos.mpr
        (List.ne_nil_of_mem hm)
      show s.active - 1 = ((s.admitted.erase i).length : Int) + s.invoking.length
      simp [this, activeEq]
      omega
    · intro j hj
      apply memBound
      rcases hj with hj | hj | hj
      · exact Or.inl hj
      · exact Or.inr (Or.inl (List.mem_of_mem_erase hj))
      · exact Or.inr (Or.inr hj)
    · intro j hj
      by_cases hij : j = i
      · subst hij
        left
        have hlt : j < s.results.length := resLen ▸ hj
        simp [List.getElem?_set_eq_of_lt _ hlt, expectedResult, ha]
      · rcases resStatus j hj with hr | hr | hr | hr
        · left
          rw [List.getElem?_set_ne (by omega)]
          exact hr
        · right; left; exact hr
        · right; right; left
          exact (List.mem_erase_of_ne hij).mpr hr
        · right; right; right; exact hr
  | acquire i hm ha hw =>
    refine ⟨resLen, ?_, ?_, ?_, ?_⟩
    · have : (s.admitted.erase i).length = s.admitted.length - 1 :=
        List.length_erase_of_mem hm
      have hpos : 1 ≤ s.admitted.length := List.length_pos.mpr
        (List.ne_nil_of_mem hm)
      show s.active = ((s.admitted.erase i).length : Int) + (i :: s.invoking).length
      simp [this, activeEq]
      omega
    · intro j hj
      apply memBound
      rcases hj with hj | hj | hj
      · exact Or.inl hj
      · exact Or.inr (Or.inl (List.mem_of_mem_erase hj))
      · rcases List.mem_cons.mp hj with hj | hj
        · subst hj; exact Or.inr (Or.inl hm)
        · exact Or.inr (Or.inr hj)
    · intro j hj
      rcases List.mem_cons.mp hj with hj | hj
      · subst hj; exact ha
      · exact invokingOk j hj
    · intro j hj
      rcases resStatus j hj with hr | hr | hr | hr
      · left; exact hr
      · right; left; exact hr
      · by_cases hij : j = i
        · subst hij; right; right; right; simp
        · right; right; left
          exact (List.mem_erase_of_ne hij).mpr hr
      · right; right; right; exact List.mem_cons_of_mem _ hr
  | settleOk i v hm hf =>
    refine ⟨by simpa using resLen, ?_, ?_, ?_, ?_⟩
    · have : (s.invoking.erase i).length = s.invoking.length - 1 :=
        List.length_erase_of_mem hm
      have hpos : 1 ≤ s.invoking.length := List.length_pos.mpr
        (List.ne_nil_of_mem hm)
      show s.active - 1 = (s.admitted.length : Int) + (s.invoking.erase i).length
      simp [this, activeEq]
      omega
    · intro j hj
      apply memBound
      rcases hj with hj | hj | hj
      · exact Or.inl hj
      · exact Or.inr (Or.inl hj)
      · exact Or.inr (Or.inr (List.mem_of_mem_erase hj))
    · intro j hj
      exact invokingOk j (List.mem_of_mem_erase hj)
    · intro j hj
      by_cases hij : j = i
      · subst hij
        left
        have hlt : j < s.results.length := resLen ▸ hj
        simp [List.getElem?_set_eq_of_lt _ hlt, expectedResult,
          invokingOk j hm, hf]
      · rcases resStatus j hj with hr | hr | hr | hr
        · left
          rw [List.getElem?_set_ne (by omega)]
          exact hr
        · right; left; exact hr
        · right; right; left; exact hr
        · right; right; right
          exact (List.mem_erase_of_ne hij).mpr hr
  | settleErr i e hm hf =>
    refine ⟨by simpa using resLen, ?_, ?_, ?_, ?_⟩
    · have : (s.invoking.erase i).length = s.invoking.length - 1 :=
        List.length_erase_of_mem hm
      have hpos : 1 ≤ s.invoking.length := List.length_pos.mpr
        (List.ne_nil_of_mem hm)
      show s.active - 1 = (s.admitted.length : Int) + (s.invoking.erase i).length
      simp [this, activeEq]
      omega
    · intro j hj
      apply memBound
      rcases hj with hj | hj | hj
      · exact Or.inl hj
      · exact Or.inr (Or.inl hj)
      · exact Or.inr (Or.inr (List.mem_of_mem_erase hj))
    · intro j hj
      exact invokingOk j (List.mem_of_mem_erase hj)
    · intro j hj
      by_cases hij : j = i
      · subst hij
        left
        have hlt : j < s.results.length := resLen ▸ hj
        simp [List.getElem?_set_eq_of_lt _ hlt, expectedResult,
          invokingOk j hm, hf]
      · rcases resStatus j hj with hr | hr | hr | hr
        · left
          rw [List.getElem?_set_ne (by omega)]
          exact hr
        · right; left; exact hr
        · right; right; left; exact hr
        · right; right; right
          exact (List.mem_erase_of_ne hij).mpr hr

theorem inv_trace {cfg : BatchConfig} {s s' : DState} {ls : List Lab}
    (hinv : Inv cfg s) (h : Trace cfg s ls s') : Inv cfg s' := by
  induction h with
  | nil => exact hinv
  | cons l h1 _h2 ih => exact ih (inv_step hinv h1)

/-- One step keeps `activeTaskCount ≤ maxConcurrent`: the only increment
is guarded by `activeTaskCount < maxConcurrent`. -/
theorem active_le_step {cfg : BatchConfig} {s s' : DState} {l : Lab}
    (hle : s.active ≤ cfg.maxConcurrent) (h : Step cfg s l s') :
    s'.active ≤ cfg.maxConcurrent := by
  cases h with
  | tick d hd => exact hle
  | pruneCheck => exact hle
  | admitTask i rest hq hc hw => show s.active + 1 ≤ cfg.maxConcurrent; omega
  | badArgs i hm ha => show s.active - 1 ≤ cfg.maxConcurrent; omega
  | acquire i hm ha hw => exact hle
  | settleOk i v hm hf => show s.active - 1 ≤ cfg.maxConcurrent; omega
  | settleErr i e hm hf => show s.active - 1 ≤ cfg.maxConcurrent; omega

theorem active_le_trace {cfg : BatchConfig} {s s' : DState} {ls : List Lab}
    (hle : s.active ≤ cfg.maxConcurrent) (h : Trace cfg s ls s') :
    s'.active ≤ cfg.maxConcurrent := by
  induction h with
  | nil => exact hle
  | cons l h1 _h2 ih => exact ih (active_le_step hle h1)

/-- C3: throughout every execution of `rpmControlledBatch` (with a
non-negative `maxConcurrent`), the `activeTaskCount` counter satisfies
`0 ≤ activeTaskCount ≤ maxConcurrent`; moreover it always equals the
number of tasks between admission and settlement (each admission
increments it, each settlement decrements it exactly once), which is why
it is never negative. -/
theorem activeTaskCount_bounds {cfg : BatchConfig} {t0 : Int} {s : DState}
    (hmc : 0 ≤ cfg.maxConcurrent)
    (h : Reachable cfg (initState cfg t0) s) :
    0 ≤ s.active ∧ s.active ≤ cfg.maxConcurrent ∧
      s.active = s.admitted.length + s.invoking.length := by
  obtain ⟨ls, htr⟩ := h
  have hinv := inv_trace (inv_init cfg t0) htr
  have hle := active_le_trace (by simpa [initState] using hmc) htr
  refine ⟨?_, hle, hinv.activeEq⟩
  rw [hinv.activeEq]
  positivity

theorem final_results_of_inv {cfg : BatchConfig} {s : DState}
    (hinv : Inv cfg s) (hfin : Final s) :
    s.results.length = cfg.numTasks ∧
      ∀ i < cfg.numTasks, resultAt s i = some (expectedResult cfg i) := by
  obtain ⟨hq, ha, hi⟩ := hfin
  refine ⟨hinv.resLen, ?_⟩
  intro i hlt
  rcases hinv.resStatus i hlt with hr | hr | hr | hr
  · simp only [resultAt, List.getD_eq_getElem?_getD, hr, Option.getD_some]
  · rw [hq] at hr; cases hr
  · rw [ha] at hr; cases hr
  · rw [hi] at hr; cases hr

/-- C1: when a run of `rpmControlledBatch` completes (every task
settled), the results array has length `fnArgs.length` and every index
holds exactly the outcome produced for that index's arguments — in
whatever order the tasks settled; an empty batch yields an empty array. -/
theorem rpmControlledBatch_results {cfg : BatchConfig} {t0 : Int}
    {ls : List Lab} {s : DState}
    (hrun : rpmControlledBatchRun cfg t0 ls s) :
    s.results.length = cfg.numTasks ∧
      ∀ i < cfg.numTasks, resultAt s i = some (expectedResult cfg i) := by
  obtain ⟨htr, hfin⟩ := hrun
  exact final_results_of_inv (inv_trace (inv_init cfg t0) htr) hfin

/-! ## A concrete two-task run used as a witness -/

/-- Concrete two-task configuration: task `i` resolves to the number `i`. -/
def cfgW : BatchConfig :=
  { rpm := 2
    maxConcurrent := 2
    numTasks := 2
    argsOk := fun _ => true
    fn := fun i => .ok (.vnum i) }

/-- Labels of a complete run of `cfgW`. -/
def labsW : List Lab :=
  [.admitTask 0, .acquire 0, .settle 0, .admitTask 1, .acquire 1, .settle 1]

/-- The final state of that run. -/
def sWF : DState :=
  { time := 0
    window := [0, 0]
    queue := []
    admitted := []
    invoking := []
    active := 0
    results := [some (.vnum 0), some (.vnum 1)]
    starts := [0, 0] }

theorem trace_cfgW : Trace cfgW (initState cfgW 0) labsW sWF := by
  refine Trace.cons _ (Step.admitTask _ 0 [1] rfl (by decide) (by decide)) ?_
  refine Trace.cons _ (Step.acquire _ 0 (by decide) rfl (by decide)) ?_
  refine Trace.cons _ (Step.settleOk _ 0 (.vnum 0) (by decide) rfl) ?_
  refine Trace.cons _ (Step.admitTask _ 1 [] rfl (by decide) (by decide)) ?_
  refine Trace.cons _ (Step.acquire _ 1 (by decide) rfl (by decide)) ?_
  refine Trace.cons _ (Step.settleOk _ 1 (.vnum 1) (by decide) rfl) ?_
  exact Trace.nil _

theorem activeTaskCount_bounds_witness :
    0 ≤ cfgW.maxConcurrent ∧
      (0 ≤ sWF.active ∧ sWF.active ≤ cfgW.maxConcurrent ∧
        sWF.active = sWF.admitted.length + sWF.invoking.length) :=
  ⟨by decide, activeTaskCount_bounds (by decide) ⟨labsW, trace_cfgW⟩⟩

/-! ## The sliding-window rate bound -/

/-- Number of recorded invocation starts falling inside the trailing
60-second interval ending at `T`, i.e. in `(T - 60000, T]`. -/
def countStartsIn (l : List Int) (T : Int) : Nat :=
  l.countP (fun x => decide (T - x < windowDuration) && decide (x ≤ T))

theorem insertSorted_perm (t : Int) (w : List Int) :
    List.Perm (insertSorted t w) (t :: w) := by
  induction w with
  | nil => exact List.Perm.refl _
  | cons x xs ih =>
    show List.Perm (if t ≤ x then t :: x :: xs else x :: insertSorted t xs) _
    by_cases h : t ≤ x
    · rw [if_pos h]
    · rw [if_neg h]
      exact (ih.cons x).trans (List.Perm.swap t x xs)

theorem insertBlocking_perm (n : Nat) (b : Int) (w : List Int) :
    List.Perm (insertBlocking n b w) (List.replicate n b ++ w) := by
  induction n with
  | zero => exact List.Perm.refl _
  | succ m ih =>
    have h1 : List.Perm (insertBlocking (m + 1) b w)
        (b :: insertBlocking m b w) := insertSorted_perm ..
    have h3 : b :: (List.replicate m b ++ w) =
        List.replicate (m + 1) b ++ w := by
      simp [List.replicate_succ]
    exact (h1.trans (ih.cons b)).trans (h3 ▸ List.Perm.refl _)

/-- The rate-limit gate of `processQueue`/`acquireRateLimitSlot`: with a
positive `rpm`, a zero wait means the pruned window is below `rpm`. -/
theorem wait_le_zero_window_lt {rpm now : Int} {w : List Int}
    (hrpm : 1 ≤ rpm) (h : (getTimeUntilNextSlot rpm now w).1 ≤ 0) :
    ((pruneWindow now w).length : Int) < rpm := by
  by_cases hc : ((pruneWindow now w).length : Int) < rpm
  · exact hc
  · exfalso
    cases hp : pruneWindow now w with
    | nil => rw [hp] at hc; simp at hc; omega
    | cons oldest rest =>
      have hmem : oldest ∈ pruneWindow now w := by
        rw [hp]; exact List.mem_cons_self _ _
      have hrec : now - oldest < windowDuration := by
        have := List.of_mem_filter hmem
        simpa using this
      have hval : (getTimeUntilNextSlot rpm now w).1 =
          max 0 (oldest + windowDuration - now + 100) := by
        show waitFor rpm now (pruneWindow now w) = _
        rw [hp, waitFor, if_neg (by rw [hp] at hc; exact hc)]
      rw [hval] at h
      have hle := le_max_right (0 : Int) (oldest + windowDuration - now + 100)
      have hpos : (0 : Int) < oldest + windowDuration - now + 100 := by
        unfold windowDuration at hrec ⊢
        omega
      omega

/-- `getTimeUntilNextSlot` second component is the pruned window. -/
theorem getTimeUntilNextSlot_snd (rpm now : Int) (w : List Int) :
    (getTimeUntilNextSlot rpm now w).2 = pruneWindow now w := rfl

/-- Invariant behind the sliding-window rate bound: every recorded start
is in the past; the starts still inside the trailing window are (as a
multiset) contained in `requestTimestamps`; and around every recorded
start the trailing window already held at most `rpm` starts. -/
structure RateInv (cfg : BatchConfig) (s : DState) : Prop where
  startsLe : ∀ x ∈ s.starts, x ≤ s.time
  subw : List.Subperm
    (s.starts.filter (fun x => decide (s.time - x < windowDuration)))
    s.window
  bounded : ∀ t ∈ s.starts, (countStartsIn s.starts t : Int) ≤ cfg.rpm

theorem rateInv_init (cfg : BatchConfig) (t0 : Int) :
    RateInv cfg (initState cfg t0) := by
  refine ⟨?_, ?_, ?_⟩
  · intro x hx
    simp [initState] at hx
  · exact List.nil_subperm
  · intro t ht
    simp [initState] at ht

theorem filter_active_subperm_pruned {s : DState}
    (hsub : List.Subperm
      (s.starts.filter (fun x => decide (s.time - x < windowDuration)))
      s.window) :
    List.Subperm
      (s.starts.filter (fun x => decide (s.time - x < windowDuration)))
      (pruneWindow s.time s.window) := by
  have h2 := List.Subperm.filter
    (fun x => decide (s.time - x < windowDuration)) hsub
  have h3 : (s.starts.filter
      (fun x => decide (s.time - x < windowDuration))).filter
      (fun x => decide (s.time - x < windowDuration)) =
      s.starts.filter (fun x => decide (s.time - x < windowDuration)) := by
    rw [List.filter_filter]
    simp only [Bool.and_self]
  rw [h3] at h2
  exact h2

theorem rateInv_step {cfg : BatchConfig} {s s' : DState} {l : Lab}
    (hrpm : 1 ≤ cfg.rpm)
    (hinv : RateInv cfg s) (h : Step cfg s l s') : RateInv cfg s' := by
  obtain ⟨startsLe, subw, bounded⟩ := hinv
  cases h with
  | tick d hd =>
    refine ⟨?_, ?_, bounded⟩
    · intro x hx
      have := startsLe x hx
      show x ≤ s.time + d
      omega
    · show List.Subperm
        (s.starts.filter (fun x => decide (s.time + d - x < windowDuration)))
        s.window
      refine List.Subperm.trans ?_ subw
      refine List.Sublist.subperm ?_
      refine List.monotone_filter_right _ ?_
      intro x hx
      simp only [decide_eq_true_eq] at hx ⊢
      omega
  | pruneCheck =>
    refine ⟨startsLe, ?_, bounded⟩
    show List.Subperm
      (s.starts.filter (fun x => decide (s.time - x < windowDuration)))
      (getTimeUntilNextSlot cfg.rpm s.time s.window).2
    rw [getTimeUntilNextSlot_snd]
    exact filter_active_subperm_pruned subw
  | admitTask i rest hq hc hw =>
    refine ⟨startsLe, ?_, bounded⟩
    show List.Subperm
      (s.starts.filter (fun x => decide (s.time - x < windowDuration)))
      (getTimeUntilNextSlot cfg.rpm s.time s.window).2
    rw [getTimeUntilNextSlot_snd]
    exact filter_active_subperm_pruned subw
  | badArgs i hm ha => exact ⟨startsLe, subw, bounded⟩
  | acquire i hm ha hw =>
    have hlt := wait_le_zero_window_lt hrpm hw
    have hsubp := filter_active_subperm_pruned subw
    have hlen : ((s.starts.filter
        (fun x => decide (s.time - x < windowDuration))).length : Int)
        < cfg.rpm := by
      have hl2 := List.Subperm.length_le hsubp
      have hl3 : ((pruneWindow s.time s.window).length : Int) < cfg.rpm := hlt
      omega
    refine ⟨?_, ?_, ?_⟩
    · intro x hx
      show x ≤ s.time
      rcases List.mem_append.mp hx with hx | hx
      · exact startsLe x hx
      · simp at hx; omega
    · show List.Subperm
        ((s.starts ++ [s.time]).filter
          (fun x => decide (s.time - x < windowDuration)))
        (insertSorted s.time
          (getTimeUntilNextSlot cfg.rpm s.time s.window).2)
      rw [getTimeUntilNextSlot_snd, List.filter_append]
      have hself : [s.time].filter
          (fun x => decide (s.time - x < windowDuration)) = [s.time] := by
        simp [windowDuration]
      rw [hself]
      refine (List.perm_append_singleton _ _).subperm_right.mpr ?_
      refine ((insertSorted_perm s.time _).subperm_left).mpr ?_
      exact (List.subperm_cons s.time).mpr hsubp
    · intro t ht
      show (countStartsIn (s.starts ++ [s.time]) t : Int) ≤ cfg.rpm
      rw [countStartsIn, List.countP_append]
      by_cases hts : s.time ≤ t
      · -- `t` can only be the newly recorded instant `s.time`
        have hteq : t = s.time := by
          rcases List.mem_append.mp ht with ht' | ht'
          · exact le_antisymm (startsLe t ht') hts
          · simpa using ht'
        subst hteq
        have hcong : s.starts.countP
            (fun x => decide (s.time - x < windowDuration) &&
              decide (x ≤ s.time)) ≤
            s.starts.countP (fun x => decide (s.time - x < windowDuration)) := by
          refine List.countP_mono_left ?_
          intro x _ hx
          simp only [Bool.and_eq_true, decide_eq_true_eq] at hx
          simp [hx.1]
        have hcnt : (s.starts.countP
            (fun x => decide (s.time - x < windowDuration)) : Int) <
            cfg.rpm := by
          rw [List.countP_eq_length_filter]
          exact hlen
        have hone : List.countP
            (fun x => decide (s.time - x < windowDuration) &&
              decide (x ≤ s.time)) [s.time] ≤ 1 := by
          simpa using List.countP_le_length _
        omega
      · -- the appended start is outside `(t - 60000, t]`
        have hmem : t ∈ s.starts := by
          rcases List.mem_append.mp ht with ht' | ht'
          · exact ht'
          · exfalso; simp at ht'; omega
        have hzero : List.countP
            (fun x => decide (t - x < windowDuration) && decide (x ≤ t))
            [s.time] = 0 := by
          simp [List.countP_cons, hts]
        rw [hzero]
        have hb := bounded t hmem
        rw [countStartsIn] at hb
        omega
  | settleOk i v hm hf => exact ⟨startsLe, subw, bounded⟩
  | settleErr i e hm hf =>
    refine ⟨startsLe, ?_, bounded⟩
    show List.Subperm
      (s.starts.filter (fun x => decide (s.time - x < windowDuration)))
      (match cooldownDelay e with
        | some dl => insertBlocking cfg.rpm.toNat
            (s.time - windowDuration + dl) s.window
        | none => s.window)
    cases hcd : cooldownDelay e with
    | none => exact subw
    | some dl =>
      simp only []
      refine List.Subperm.trans subw ?_
      refine ((insertBlocking_perm _ _ _).subperm_left).mpr ?_
      exact (List.sublist_append_right _ _).subperm

theorem rateInv_trace {cfg : BatchConfig} {s s' : DState} {ls : List Lab}
    (hrpm : 1 ≤ cfg.rpm)
    (hinv : RateInv cfg s) (h : Trace cfg s ls s') : RateInv cfg s' := by
  induction h with
  | nil => exact hinv
  | cons l h1 _h2 ih => exact ih (rateInv_step hrpm hinv h1)

theorem exists_max_of_ne_nil {l : List Int} (h : l ≠ []) :
    ∃ m ∈ l, ∀ x ∈ l, x ≤ m := by
  induction l with
  | nil => exact absurd rfl h
  | cons a l ih =>
    cases l with
    | nil =>
      refine ⟨a, List.mem_cons_self _ _, ?_⟩
      intro x hx
      simp at hx
      omega
    | cons b l' =>
      obtain ⟨m, hm, hmax⟩ := ih (List.cons_ne_nil _ _)
      by_cases ham : a ≤ m
      · refine ⟨m, List.mem_cons_of_mem _ hm, ?_⟩
        intro x hx
        rcases List.mem_cons.mp hx with hx | hx
        · omega
        · exact hmax x hx
      · refine ⟨a, List.mem_cons_self _ _, ?_⟩
        intro x hx
        rcases List.mem_cons.mp hx with hx | hx
        · omega
        · have := hmax x hx; omega

/-- Lifting the per-start bound to an arbitrary trailing window: the
interval `(T - 60000, T]` contains at most as many starts as the
interval ending at its latest start, which the invariant bounds. -/
theorem countStartsIn_le_of_bounded {rpm : Int} {l : List Int}
    (hr : 0 ≤ rpm)
    (hb : ∀ t ∈ l, (countStartsIn l t : Int) ≤ rpm) (T : Int) :
    (countStartsIn l T : Int) ≤ rpm := by
  cases hS : l.filter
      (fun x => decide (T - x < windowDuration) && decide (x ≤ T)) with
  | nil =>
    have : countStartsIn l T = 0 := by
      rw [countStartsIn, List.countP_eq_length_filter, hS]
      rfl
    rw [this]
    exact_mod_cast hr
  | cons a S' =>
    obtain ⟨m, hmS, hmax⟩ := exists_max_of_ne_nil
      (List.cons_ne_nil _ _)
    rw [← hS] at hmS hmax
    have hmem : m ∈ l := List.mem_of_mem_filter hmS
    have hmprop := List.of_mem_filter hmS
    simp only [Bool.and_eq_true, decide_eq_true_eq] at hmprop
    have hmono : countStartsIn l T ≤ countStartsIn l m := by
      refine List.countP_mono_left ?_
      intro x hx hpx
      have hxS : x ∈ l.filter
          (fun x => decide (T - x < windowDuration) && decide (x ≤ T)) :=
        List.mem_filter.mpr ⟨hx, hpx⟩
      have hxm := hmax x hxS
      simp only [Bool.and_eq_true, decide_eq_true_eq] at hpx ⊢
      constructor
      · omega
      · exact hxm
    calc (countStartsIn l T : Int) ≤ (countStartsIn l m : Int) := by
          exact_mod_cast hmono
      _ ≤ rpm := hb m hmem

/-- C2: in every execution of `rpmControlledBatch` (sliding-window
variant, positive `rpm`), every trailing 60,000 ms interval contains at
most `rpm` task-invocation starts, a start being the recording of a
rate-limit slot immediately before `asyncFn` is called. -/
theorem sliding_window_rate_bound {cfg : BatchConfig} {t0 : Int}
    {s : DState} (hrpm : 1 ≤ cfg.rpm)
    (h : Reachable cfg (initState cfg t0) s) (T : Int) :
    (countStartsIn s.starts T : Int) ≤ cfg.rpm := by
  obtain ⟨ls, htr⟩ := h
  have hinv := rateInv_trace hrpm (rateInv_init cfg t0) htr
  exact countStartsIn_le_of_bounded (by omega) hinv.bounded T

theorem sliding_window_rate_bound_witness :
    1 ≤ cfgW.rpm ∧ (countStartsIn sWF.starts 0 : Int) ≤ cfgW.rpm :=
  ⟨by decide,
    sliding_window_rate_bound (by decide) ⟨labsW, trace_cfgW⟩ 0⟩

theorem rpmControlledBatch_results_witness :
    rpmControlledBatchRun cfgW 0 labsW sWF ∧
      (sWF.results.length = cfgW.numTasks ∧
        ∀ i < cfgW.numTasks, resultAt sWF i = some (expectedResult cfgW i)) :=
  ⟨⟨trace_cfgW, rfl, rfl, rfl⟩,
    rpmControlledBatch_results ⟨trace_cfgW, rfl, rfl, rfl⟩⟩

/-! ## Sortedness of the timestamp window and the
`getTimeUntilNextSlot` contract -/

theorem pairwise_insertSorted {t : Int} {w : List Int}
    (h : w.Pairwise (· ≤ ·)) :
    (insertSorted t w).Pairwise (· ≤ ·) := by
  induction w with
  | nil => simp [insertSorted]
  | cons x xs ih =>
    rcases List.pairwise_cons.mp h with ⟨hx, hxs⟩
    show (if t ≤ x then t :: x :: xs else x :: insertSorted t xs).Pairwise _
    by_cases hle : t ≤ x
    · rw [if_pos hle]
      refine List.pairwise_cons.mpr ⟨?_, h⟩
      intro y hy
      rcases List.mem_cons.mp hy with rfl | hy
      · exact hle
      · exact le_trans hle (hx y hy)
    · rw [if_neg hle]
      refine List.pairwise_cons.mpr ⟨?_, ih hxs⟩
      intro y hy
      have hmem : y ∈ t :: xs := (insertSorted_perm t xs).mem_iff.mp hy
      rcases List.mem_cons.mp hmem with rfl | hy'
      · omega
      · exact hx y hy'

theorem pairwise_insertBlocking {n : Nat} {b : Int} {w : List Int}
    (h : w.Pairwise (· ≤ ·)) :
    (insertBlocking n b w).Pairwise (· ≤ ·) := by
  induction n with
  | zero => exact h
  | succ m ih => exact pairwise_insertSorted ih

theorem window_sorted_step {cfg : BatchConfig} {s s' : DState} {l : Lab}
    (hs : s.window.Pairwise (· ≤ ·)) (h : Step cfg s l s') :
    s'.window.Pairwise (· ≤ ·) := by
  cases h with
  | tick d hd => exact hs
  | pruneCheck => exact List.Pairwise.filter _ hs
  | admitTask i rest hq hc hw => exact List.Pairwise.filter _ hs
  | badArgs i hm ha => exact hs
  | acquire i hm ha hw =>
    exact pairwise_insertSorted (List.Pairwise.filter _ hs)
  | settleOk i v hm hf => exact hs
  | settleErr i e hm hf =>
    show (match cooldownDelay e with
        | some dl => insertBlocking cfg.rpm.toNat
            (s.time - windowDuration + dl) s.window
        | none => s.window).Pairwise (· ≤ ·)
    cases cooldownDelay e with
    | none => exact hs
    | some dl => exact pairwise_insertBlocking hs

/-- Program invariant: `requestTimestamps` stays sorted — it starts
empty, `acquireRateLimitSlot` and the 429 handler push-and-sort, and
pruning preserves order.  This justifies reading the oldest entry at
index 0, and the sortedness hypothesis of the contract below. -/
theorem window_sorted_trace {cfg : BatchConfig} {s s' : DState}
    {ls : List Lab} (hs : s.window.Pairwise (· ≤ ·))
    (h : Trace cfg s ls s') : s'.window.Pairwise (· ≤ ·) := by
  induction h with
  | nil => exact hs
  | cons l h1 _h2 ih => exact ih (window_sorted_step hs h1)

theorem window_sorted {cfg : BatchConfig} {t0 : Int} {s : DState}
    (h : Reachable cfg (initState cfg t0) s) :
    s.window.Pairwise (· ≤ ·) := by
  obtain ⟨ls, htr⟩ := h
  exact window_sorted_trace (by simp [initState]) htr

/-- C7: `getTimeUntilNextSlot` (for a positive `rpm` and a sorted
window, both program invariants) first prunes every timestamp at least
60 s older than `now`; it returns 0 when the remaining count is strictly
below `rpm`, and otherwise returns `(oldest + 60000) - now` plus the
100 ms safety buffer, clamped to be non-negative, where `oldest` is the
minimum of the remaining timestamps. -/
theorem getTimeUntilNextSlot_contract (rpm now : Int) (w : List Int)
    (hrpm : 1 ≤ rpm) (hsort : w.Pairwise (· ≤ ·)) :
    (getTimeUntilNextSlot rpm now w).2 =
        w.filter (fun ts => decide (now - ts < 60000)) ∧
      (((pruneWindow now w).length : Int) < rpm →
        (getTimeUntilNextSlot rpm now w).1 = 0) ∧
      (¬ ((pruneWindow now w).length : Int) < rpm →
        ∃ oldest, oldest ∈ pruneWindow now w ∧
          (∀ x ∈ pruneWindow now w, oldest ≤ x) ∧
          (getTimeUntilNextSlot rpm now w).1 =
            max 0 (oldest + 60000 - now + 100)) := by
  refine ⟨rfl, ?_, ?_⟩
  · intro hlt
    show waitFor rpm now (pruneWindow now w) = 0
    cases hp : pruneWindow now w with
    | nil => rw [waitFor, if_pos (by rw [hp] at hlt; exact hlt)]
    | cons a r => rw [waitFor, if_pos (by rw [hp] at hlt; exact hlt)]
  · intro hge
    cases hp : pruneWindow now w with
    | nil =>
      exfalso
      rw [hp] at hge
      simp at hge
      omega
    | cons oldest rest =>
      refine ⟨oldest, ?_, ?_, ?_⟩
      · exact List.mem_cons_self _ _
      · intro x hx
        have hsortp : (pruneWindow now w).Pairwise (· ≤ ·) :=
          List.Pairwise.filter _ hsort
        rw [hp] at hsortp
        rcases List.mem_cons.mp hx with rfl | hx
        · exact le_refl _
        · exact (List.pairwise_cons.mp hsortp).1 x hx
      · show waitFor rpm now (pruneWindow now w) =
          max 0 (oldest + 60000 - now + 100)
        rw [hp, waitFor, if_neg (by rw [hp] at hge; exact hge)]
        rfl

theorem getTimeUntilNextSlot_contract_witness :
    (getTimeUntilNextSlot 1 70000 [100, 70000]).2 =
        [100, 70000].filter (fun ts => decide ((70000 : Int) - ts < 60000)) ∧
      (((pruneWindow 70000 [100, 70000]).length : Int) < 1 →
        (getTimeUntilNextSlot 1 70000 [100, 70000]).1 = 0) ∧
      (¬ ((pruneWindow 70000 [100, 70000]).length : Int) < 1 →
        ∃ oldest, oldest ∈ pruneWindow 70000 [100, 70000] ∧
          (∀ x ∈ pruneWindow 70000 [100, 70000], oldest ≤ x) ∧
          (getTimeUntilNextSlot 1 70000 [100, 70000]).1 =
            max 0 (oldest + 60000 - 70000 + 100)) :=
  getTimeUntilNextSlot_contract 1 70000 [100, 70000] (by decide) (by decide)

/-! ## The asymmetric result encoding -/

/-- C10: `rpmControlledBatch` stores a failure at the task's index as
the wrapper `{ error: thrownValue }` while a success is stored as the
raw resolved value with no wrapper; consequently a task that resolves
successfully to an object carrying a truthy `error` property produces
the very same stored value as a failed task, and the `result.error`
check used by `exampleRpmControlled` classifies it as a failure. -/
theorem result_encoding_asymmetry :
    (∀ v : JsVal, storeSuccess v = v) ∧
      (∀ e : GError, storeFailure e = JsVal.vobj [("error", e.raw)]) ∧
      storeSuccess (JsVal.vobj [("error", JsVal.vstr "boom")]) =
        storeFailure ⟨none, none, JsVal.vstr "boom"⟩ ∧
      classifiedAsFailure
        (storeSuccess (JsVal.vobj [("error", JsVal.vstr "boom")])) = true ∧
      classifiedAsFailure
        (storeFailure ⟨none, none, JsVal.vstr "boom"⟩) = true :=
  ⟨fun _ => rfl, fun _ => rfl, rfl, by decide, by decide⟩

/-! ## Configuration handling (`options.rpm || 10`) -/

/-- The configuration `rpmControlledBatch` actually runs with, built
from the caller's options by the two `||` defaultings of lines 118–119. -/
def mkBatchConfig (optRpm optMax : Option Int) (numTasks : Nat)
    (argsOk : Nat → Bool) (fn : Nat → TaskOutcome) : BatchConfig :=
  { rpm := effRpm optRpm
    maxConcurrent := effMaxConcurrent optMax (effRpm optRpm)
    numTasks := numTasks
    argsOk := argsOk
    fn := fn }

/-- The effective configuration for a call with `options.rpm = 0`. -/
def cfg8 : BatchConfig :=
  mkBatchConfig (some 0) none 1 (fun _ => true) (fun _ => .ok (.vnum 5))

def labs8 : List Lab := [.admitTask 0, .acquire 0, .settle 0]

def s8F : DState :=
  { time := 0
    window := [0]
    queue := []
    admitted := []
    invoking := []
    active := 0
    results := [some (.vnum 5)]
    starts := [0] }

theorem trace8 : Trace cfg8 (initState cfg8 0) labs8 s8F := by
  refine Trace.cons _ (Step.admitTask _ 0 [] rfl (by decide) (by decide)) ?_
  refine Trace.cons _ (Step.acquire _ 0 (by decide) rfl (by decide)) ?_
  refine Trace.cons _ (Step.settleOk _ 0 (.vnum 5) (by decide) rfl) ?_
  exact Trace.nil _

/-- C8 counterexample: a call with the non-positive `options.rpm = 0`
does not fail before dispatch — `options.rpm || 10` silently substitutes
the default 10, the task is invoked, and its per-task result is
produced. -/
theorem nonpositive_rpm_still_dispatches :
    effRpm (some 0) = 10 ∧
      rpmControlledBatchRun cfg8 0 labs8 s8F ∧
      resultAt s8F 0 = some (.vnum 5) :=
  ⟨rfl, ⟨trace8, rfl, rfl, rfl⟩, rfl⟩

/-- With a negative `rpm`, the `length < rpm` test is always false, so a
zero wait (the `NaN` comparison in the source) forces the pruned window
to be empty: acquisitions trickle through one per drained window instead
of being rejected. -/
theorem acquire_gate_neg {rpm now : Int} {w : List Int} (hneg : rpm < 0)
    (h : (getTimeUntilNextSlot rpm now w).1 ≤ 0) :
    pruneWindow now w = [] := by
  cases hp : pruneWindow now w with
  | nil => rfl
  | cons o r =>
    exfalso
    have hmem : o ∈ pruneWindow now w := by
      rw [hp]; exact List.mem_cons_self _ _
    have hrec : now - o < windowDuration := by
      simpa using List.of_mem_filter hmem
    have hval : (getTimeUntilNextSlot rpm now w).1 =
        max 0 (o + windowDuration - now + 100) := by
      show waitFor rpm now (pruneWindow now w) = _
      rw [hp, waitFor, if_neg (by simp; omega)]
    rw [hval] at h
    have hle := le_max_right (0 : Int) (o + windowDuration - now + 100)
    have hpos : (0 : Int) < o + windowDuration - now + 100 := by
      unfold windowDuration at hrec ⊢
      omega
    omega

/-- C8 amended: `rpmControlledBatch` performs no configuration
validation and never fails the call for non-positive `rpm` or
`maxConcurrent`: a falsy (zero or absent) option is silently replaced by
its default (`rpm → 10`, `maxConcurrent → rpm`) and the batch dispatches
normally, while a negative `rpm` is kept as is, merely starving the rate
gate (an acquisition then requires the pruned window to be empty) —
tasks may still start and no error is raised before dispatch. -/
theorem config_no_validation :
    effRpm none = 10 ∧ effRpm (some 0) = 10 ∧
      (∀ r : Int, effMaxConcurrent none r = r ∧
        effMaxConcurrent (some 0) r = r) ∧
      (rpmControlledBatchRun cfg8 0 labs8 s8F ∧
        resultAt s8F 0 = some (.vnum 5)) ∧
      (∀ (cfg : BatchConfig) (s s' : DState) (i : Nat), cfg.rpm < 0 →
        Step cfg s (.acquire i) s' → pruneWindow s.time s.window = []) := by
  refine ⟨rfl, rfl, fun r => ⟨rfl, rfl⟩,
    ⟨⟨trace8, rfl, rfl, rfl⟩, rfl⟩, ?_⟩
  intro cfg s s' i hneg hstep
  cases hstep
  exact acquire_gate_neg hneg (by assumption)

def cfgNeg : BatchConfig :=
  { rpm := -5
    maxConcurrent := 1
    numTasks := 1
    argsOk := fun _ => true
    fn := fun _ => .ok (.vnum 1) }

def sN1 : DState :=
  { time := 0
    window := []
    queue := []
    admitted := [0]
    invoking := []
    active := 1
    results := [none]
    starts := [] }

theorem config_no_validation_witness :
    pruneWindow sN1.time sN1.window = [] :=
  config_no_validation.2.2.2.2 cfgNeg sN1 _ 0 (by decide)
    (Step.acquire sN1 0 (by decide) rfl (by decide))

/-! ## The 429 cooldown can overfill the window -/

/-- Number of `requestTimestamps` entries inside the trailing 60 s
window at the state's current time — the "active" timestamps. -/
def activeWindowCount (s : DState) : Nat :=
  (s.window.filter (fun x => decide (s.time - x < windowDuration))).length

/-- A 429 error whose `RetryInfo` detail advises a 5 s retry delay. -/
def eRetry5s : GError :=
  { status := some 429
    errorDetails := some
      [{ atType := some "type.googleapis.com/google.rpc.RetryInfo"
         retryDelay := some (.vstr "5s") }]
    raw := .vstr "quota" }

theorem cooldownDelay_eRetry5s : cooldownDelay eRetry5s = some 5000 := by
  decide

def cfg6 : BatchConfig :=
  { rpm := 1
    maxConcurrent := 1
    numTasks := 1
    argsOk := fun _ => true
    fn := fun _ => .fail eRetry5s }

def labs6 : List Lab := [.admitTask 0, .acquire 0, .settle 0]

def s6F : DState :=
  { time := 100000
    window := [45000, 100000]
    queue := []
    admitted := []
    invoking := []
    active := 0
    results := [some (errWrap (.vstr "quota"))]
    starts := [100000] }

theorem trace6 : Trace cfg6 (initState cfg6 100000) labs6 s6F := by
  refine Trace.cons _ (Step.admitTask _ 0 [] rfl (by decide) (by decide)) ?_
  refine Trace.cons _ (Step.acquire _ 0 (by decide) rfl (by decide)) ?_
  refine Trace.cons _ (Step.settleErr _ 0 eRetry5s (by decide) rfl) ?_
  exact Trace.nil _

/-- C6 counterexample: after a 429 advising a 5 s retry, the handler
pushes `rpm` synthetic blocking timestamps that lie inside the trailing
60 s window while the real start is still active: the state reached
below holds 2 active timestamps although `rpm = 1`. -/
theorem window_count_exceeds_rpm :
    Trace cfg6 (initState cfg6 100000) labs6 s6F ∧
      cfg6.rpm < (activeWindowCount s6F : Int) :=
  ⟨trace6, by decide⟩

theorem activeWindowCount_le_step {cfg : BatchConfig} {s s' : DState}
    {l : Lab} (hrpm : 1 ≤ cfg.rpm)
    (hW : (activeWindowCount s : Int) ≤ cfg.rpm) (h : Step cfg s l s')
    (hnt : ∀ i e, l = Lab.settle i → cfg.fn i = .fail e →
      cooldownDelay e = none) :
    (activeWindowCount s' : Int) ≤ cfg.rpm := by
  cases h with
  | tick d hd =>
    show ((s.window.filter
        (fun x => decide (s.time + d - x < windowDuration))).length : Int) ≤
      cfg.rpm
    have hsub : List.Sublist
        (s.window.filter (fun x => decide (s.time + d - x < windowDuration)))
        (s.window.filter (fun x => decide (s.time - x < windowDuration))) := by
      refine List.monotone_filter_right _ ?_
      intro x hx
      simp only [decide_eq_true_eq] at hx ⊢
      omega
    have hlen := hsub.length_le
    rw [activeWindowCount] at hW
    omega
  | pruneCheck =>
    show (((pruneWindow s.time s.window).filter
        (fun x => decide (s.time - x < windowDuration))).length : Int) ≤
      cfg.rpm
    have heq : (pruneWindow s.time s.window).filter
        (fun x => decide (s.time - x < windowDuration)) =
        s.window.filter (fun x => decide (s.time - x < windowDuration)) := by
      show (s.window.filter _).filter _ = _
      rw [List.filter_filter]
      simp only [Bool.and_self]
    rw [heq]
    rw [activeWindowCount] at hW
    exact hW
  | admitTask i rest hq hc hw =>
    show (((pruneWindow s.time s.window).filter
        (fun x => decide (s.time - x < windowDuration))).length : Int) ≤
      cfg.rpm
    have heq : (pruneWindow s.time s.window).filter
        (fun x => decide (s.time - x < windowDuration)) =
        s.window.filter (fun x => decide (s.time - x < windowDuration)) := by
      show (s.window.filter _).filter _ = _
      rw [List.filter_filter]
      simp only [Bool.and_self]
    rw [heq]
    rw [activeWindowCount] at hW
    exact hW
  | badArgs i hm ha => exact hW
  | acquire i hm ha hw =>
    have hlt := wait_le_zero_window_lt hrpm hw
    show (((insertSorted s.time (pruneWindow s.time s.window)).filter
        (fun x => decide (s.time - x < windowDuration))).length : Int) ≤
      cfg.rpm
    rw [← List.countP_eq_length_filter]
    rw [List.Perm.countP_eq _ (insertSorted_perm _ _)]
    have hall : (pruneWindow s.time s.window).countP
        (fun x => decide (s.time - x < windowDuration)) =
        (pruneWindow s.time s.window).length := by
      rw [List.countP_eq_length_filter]
      congr 1
      refine List.filter_eq_self.mpr ?_
      intro a ha2
      simpa using List.of_mem_filter ha2
    have hcnt : List.countP (fun x => decide (s.time - x < windowDuration))
        (s.time :: pruneWindow s.time s.window) ≤
        (pruneWindow s.time s.window).length + 1 := by
      rw [List.countP_cons, hall]
      split <;> omega
    omega
  | settleOk i v hm hf => exact hW
  | settleErr i e hm hf =>
    have hcd := hnt i e rfl hf
    show ((((match cooldownDelay e with
        | some dl => insertBlocking cfg.rpm.toNat
            (s.time - windowDuration + dl) s.window
        | none => s.window) : List Int).filter
        (fun x => decide (s.time - x < windowDuration))).length : Int) ≤
      cfg.rpm
    rw [hcd]
    exact hW

theorem activeWindowCount_le_trace {cfg : BatchConfig} {s s' : DState}
    {ls : List Lab} (hrpm : 1 ≤ cfg.rpm)
    (hW : (activeWindowCount s : Int) ≤ cfg.rpm)
    (htr : Trace cfg s ls s')
    (hnt : ∀ l ∈ ls, ∀ i e, l = Lab.settle i → cfg.fn i = .fail e →
      cooldownDelay e = none) :
    (activeWindowCount s' : Int) ≤ cfg.rpm := by
  induction htr with
  | nil => exact hW
  | cons l h1 _h2 ih =>
    refine ih (activeWindowCount_le_step hrpm hW h1 ?_) ?_
    · exact hnt l (List.mem_cons_self _ _)
    · intro l' hl'
      exact hnt l' (List.mem_cons_of_mem _ hl')

/-- C6 amended: the number of active timestamps in the window never
exceeds `rpm` in any execution that triggers no 429 cooldown; the
backpressure injection of `executeTask` is the sole exception and can
raise the count up to the prior count plus `rpm`. -/
theorem window_active_count_bound_throttle_free {cfg : BatchConfig}
    {t0 : Int} {ls : List Lab} {s : DState} (hrpm : 1 ≤ cfg.rpm)
    (htr : Trace cfg (initState cfg t0) ls s)
    (hnt : ∀ l ∈ ls, ∀ i e, l = Lab.settle i → cfg.fn i = .fail e →
      cooldownDelay e = none) :
    (activeWindowCount s : Int) ≤ cfg.rpm := by
  refine activeWindowCount_le_trace hrpm ?_ htr hnt
  show ((([] : List Int).filter
    (fun x => decide (t0 - x < windowDuration))).length : Int) ≤ cfg.rpm
  simp only [List.filter_nil, List.length_nil, Nat.cast_zero]
  omega

theorem window_active_count_bound_throttle_free_witness :
    (activeWindowCount sWF : Int) ≤ cfgW.rpm := by
  refine window_active_count_bound_throttle_free (by decide) trace_cfgW ?_
  intro l hl i e hle hf
  simp [cfgW] at hf

/-! ## Backpressure: the 429 cooldown suppresses acquisitions -/

/-- A 429 whose `RetryInfo` entry carries no `retryDelay` at all. -/
def eNoDelay : GError :=
  { status := some 429
    errorDetails := some
      [{ atType := some "type.googleapis.com/google.rpc.RetryInfo"
         retryDelay := none }]
    raw := .vstr "quota" }

/-- A 429 whose `retryDelay` is a (truthy) number rather than a string:
`.replace` throws and the catch block applies the 30 s default. -/
def eNumDelay : GError :=
  { status := some 429
    errorDetails := some
      [{ atType := some "type.googleapis.com/google.rpc.RetryInfo"
         retryDelay := some (.vnum 7) }]
    raw := .vstr "quota" }

/-- C5 counterexample: a 429 whose `RetryInfo` entry has no
`retryDelay` — the retry-after duration cannot be determined from the
error — triggers no cooldown at all: the handler pushes nothing, and in
particular does not apply the claimed 30 s default (that fallback lives
in the catch block, reached only when inspecting `retryDelay` throws). -/
theorem throttle_no_default_when_undeterminable :
    cooldownDelay eNoDelay = none ∧ cooldownDelay eNoDelay ≠ some 30000 :=
  ⟨by decide, by decide⟩

theorem count_insertBlocking_self (n : Nat) (b : Int) (w : List Int) :
    n ≤ (insertBlocking n b w).count b := by
  rw [List.Perm.count_eq (insertBlocking_perm n b w) b, List.count_append,
    List.count_replicate_self]
  omega

theorem count_insertBlocking_ge (n : Nat) (c b : Int) (w : List Int) :
    w.count b ≤ (insertBlocking n c w).count b := by
  rw [List.Perm.count_eq (insertBlocking_perm n c w) b, List.count_append]
  omega

theorem count_insertSorted_ge (t b : Int) (w : List Int) :
    w.count b ≤ (insertSorted t w).count b := by
  rw [List.Perm.count_eq (insertSorted_perm t w) b, List.count_cons]
  split <;> omega

/-- The effect of a settlement of task `i` whose outcome is a throttle
error with determined cooldown `D`: the clock is untouched and `rpm`
copies of the blocking timestamp `now - windowDuration + D` enter the
window. -/
theorem settle_throttle_effect {cfg : BatchConfig} {s s' : DState}
    {i : Nat} {e : GError} {D : Int}
    (hf : cfg.fn i = .fail e) (hcd : cooldownDelay e = some D)
    (h : Step cfg s (.settle i) s') :
    s'.time = s.time ∧
      s'.window = insertBlocking cfg.rpm.toNat
        (s.time - windowDuration + D) s.window := by
  cases h with
  | settleOk =>
    rename_i v hm hf2
    rw [hf] at hf2
    cases hf2
  | settleErr =>
    rename_i e2 hm hf2
    rw [hf] at hf2
    injection hf2 with he
    subst he
    refine ⟨rfl, ?_⟩
    show (match cooldownDelay e with
      | some dl => insertBlocking cfg.rpm.toNat
          (s.time - windowDuration + dl) s.window
      | none => s.window) = _
    rw [hcd]

theorem blockInv_step {cfg : BatchConfig} {s s' : DState} {l : Lab}
    {t0 D b : Int} (hb : b = t0 - windowDuration + D)
    (h : Step cfg s l s')
    (h1 : t0 ≤ s.time)
    (h2 : s.time < t0 + D → cfg.rpm.toNat ≤ s.window.count b) :
    t0 ≤ s'.time ∧
      (s'.time < t0 + D → cfg.rpm.toNat ≤ s'.window.count b) := by
  cases h with
  | tick d hd =>
    refine ⟨by show t0 ≤ s.time + d; omega, ?_⟩
    intro hlt
    have hlt' : s.time + d < t0 + D := hlt
    exact h2 (by omega)
  | pruneCheck =>
    refine ⟨h1, ?_⟩
    intro hlt
    have hlt' : s.time < t0 + D := hlt
    have hbact : decide (s.time - b < windowDuration) = true := by
      simp only [decide_eq_true_eq]
      omega
    have hcf : List.count b (List.filter
        (fun ts => decide (s.time - ts < windowDuration)) s.window) =
        List.count b s.window := List.count_filter hbact
    show cfg.rpm.toNat ≤ (pruneWindow s.time s.window).count b
    rw [pruneWindow, hcf]
    exact h2 hlt'
  | admitTask i rest hq hc hw =>
    refine ⟨h1, ?_⟩
    intro hlt
    have hlt' : s.time < t0 + D := hlt
    have hbact : decide (s.time - b < windowDuration) = true := by
      simp only [decide_eq_true_eq]
      omega
    have hcf : List.count b (List.filter
        (fun ts => decide (s.time - ts < windowDuration)) s.window) =
        List.count b s.window := List.count_filter hbact
    show cfg.rpm.toNat ≤ (pruneWindow s.time s.window).count b
    rw [pruneWindow, hcf]
    exact h2 hlt'
  | badArgs i hm ha => exact ⟨h1, fun hlt => h2 hlt⟩
  | acquire i hm ha hw =>
    refine ⟨h1, ?_⟩
    intro hlt
    have hlt' : s.time < t0 + D := hlt
    have hbact : decide (s.time - b < windowDuration) = true := by
      simp only [decide_eq_true_eq]
      omega
    show cfg.rpm.toNat ≤ (insertSorted s.time
      (getTimeUntilNextSlot cfg.rpm s.time s.window).2).count b
    have hge := count_insertSorted_ge s.time b
      (getTimeUntilNextSlot cfg.rpm s.time s.window).2
    have hcf : List.count b (List.filter
        (fun ts => decide (s.time - ts < windowDuration)) s.window) =
        List.count b s.window := List.count_filter hbact
    have hcp : ((getTimeUntilNextSlot cfg.rpm s.time s.window).2).count b =
        s.window.count b := by
      show (pruneWindow s.time s.window).count b = _
      rw [pruneWindow, hcf]
    have := h2 hlt'
    omega
  | settleOk i v hm hf => exact ⟨h1, fun hlt => h2 hlt⟩
  | settleErr i e hm hf =>
    refine ⟨h1, ?_⟩
    intro hlt
    have hlt' : s.time < t0 + D := hlt
    show cfg.rpm.toNat ≤ (match cooldownDelay e with
      | some dl => insertBlocking cfg.rpm.toNat
          (s.time - windowDuration + dl) s.window
      | none => s.window).count b
    cases hcd2 : cooldownDelay e with
    | none => exact h2 hlt'
    | some dl =>
      show cfg.rpm.toNat ≤ (insertBlocking cfg.rpm.toNat
        (s.time - windowDuration + dl) s.window).count b
      have hge := count_insertBlocking_ge cfg.rpm.toNat
        (s.time - windowDuration + dl) b s.window
      have := h2 hlt'
      omega

theorem blockInv_trace {cfg : BatchConfig} {s s' : DState} {ls : List Lab}
    {t0 D b : Int} (hb : b = t0 - windowDuration + D)
    (htr : Trace cfg s ls s')
    (h1 : t0 ≤ s.time)
    (h2 : s.time < t0 + D → cfg.rpm.toNat ≤ s.window.count b) :
    t0 ≤ s'.time ∧
      (s'.time < t0 + D → cfg.rpm.toNat ≤ s'.window.count b) := by
  induction htr with
  | nil => exact ⟨h1, h2⟩
  | cons l hstep _htr ih =>
    obtain ⟨g1, g2⟩ := blockInv_step hb hstep h1 h2
    exact ih g1 g2

/-- C5 amended: whenever a task settles with a throttle error whose
cooldown the 429 handler determines as `D` (parsed from a string
`retryDelay`, or the 30 s default when inspecting a truthy non-string
`retryDelay` throws), no rate-limit slot is acquired — so no further
task invocation starts — until at least `D` has elapsed from the
settlement instant; but when the retry-after duration is simply
undeterminable (no `RetryInfo` entry, or an absent/falsy/unparsable
`retryDelay`), no cooldown at all is applied, not the claimed 30 s
default, which fires only from the catch block. -/
theorem throttle_backpressure :
    (∀ (cfg : BatchConfig) (s1 s2 s3 s4 : DState) (i j : Nat) (e : GError)
      (D : Int) (ls : List Lab), 1 ≤ cfg.rpm → cfg.fn i = .fail e →
      cooldownDelay e = some D → Step cfg s1 (.settle i) s2 →
      Trace cfg s2 ls s3 → Step cfg s3 (.acquire j) s4 →
      s1.time + D ≤ s3.time) ∧
      cooldownDelay eNumDelay = some 30000 ∧
      cooldownDelay eNoDelay = none := by
  refine ⟨?_, by decide, by decide⟩
  intro cfg s1 s2 s3 s4 i j e D ls hrpm hf hcd h12 htr h34
  obtain ⟨hteq, hweq⟩ := settle_throttle_effect hf hcd h12
  have hbase1 : s1.time ≤ s2.time := le_of_eq hteq.symm
  have hbase2 : s2.time < s1.time + D →
      cfg.rpm.toNat ≤ s2.window.count (s1.time - windowDuration + D) := by
    intro _
    rw [hweq]
    exact count_insertBlocking_self _ _ _
  obtain ⟨hg1, hg2⟩ := blockInv_trace rfl htr hbase1 hbase2
  rcases lt_or_ge s3.time (s1.time + D) with hlt | hge
  · exfalso
    have hcount := hg2 hlt
    have hw3 : (getTimeUntilNextSlot cfg.rpm s3.time s3.window).1 ≤ 0 := by
      cases h34
      assumption
    have hlt3 := wait_le_zero_window_lt hrpm hw3
    have hbact3 : decide
        (s3.time - (s1.time - windowDuration + D) < windowDuration) =
        true := by
      simp only [decide_eq_true_eq]
      omega
    have hcf3 : List.count (s1.time - windowDuration + D) (List.filter
        (fun ts => decide (s3.time - ts < windowDuration)) s3.window) =
        List.count (s1.time - windowDuration + D) s3.window :=
      List.count_filter hbact3
    have hcp : (pruneWindow s3.time s3.window).count
        (s1.time - windowDuration + D) =
        s3.window.count (s1.time - windowDuration + D) := by
      rw [pruneWindow, hcf3]
    have hcl := List.count_le_length (s1.time - windowDuration + D)
      (pruneWindow s3.time s3.window)
    have htn : (cfg.rpm.toNat : Int) = cfg.rpm :=
      Int.toNat_of_nonneg (by omega)
    omega
  · omega

def cfg5 : BatchConfig :=
  { rpm := 1
    maxConcurrent := 2
    numTasks := 2
    argsOk := fun _ => true
    fn := fun i =>
      match i with
      | 0 => .fail eRetry5s
      | _ => .ok (.vnum 1) }

def s1c : DState :=
  { time := 100000
    window := [100000]
    queue := [1]
    admitted := []
    invoking := [0]
    active := 1
    results := [none, none]
    starts := [100000] }

def s2c : DState :=
  { time := 100000
    window := [45000, 100000]
    queue := [1]
    admitted := []
    invoking := []
    active := 0
    results := [some (errWrap (.vstr "quota")), none]
    starts := [100000] }

def s3c : DState :=
  { time := 160001
    window := []
    queue := []
    admitted := [1]
    invoking := []
    active := 1
    results := [some (errWrap (.vstr "quota")), none]
    starts := [100000] }

theorem trace23 : Trace cfg5 s2c [.tick 60001, .admitTask 1] s3c := by
  refine Trace.cons _ (Step.tick _ 60001 (by decide)) ?_
  refine Trace.cons _ (Step.admitTask _ 1 [] rfl (by decide) (by decide)) ?_
  exact Trace.nil _

theorem throttle_backpressure_witness : s1c.time + 5000 ≤ s3c.time :=
  throttle_backpressure.1 cfg5 s1c s2c s3c _ 0 1 eRetry5s 5000
    [.tick 60001, .admitTask 1] (by decide) rfl cooldownDelay_eRetry5s
    (Step.settleErr s1c 0 eRetry5s (by decide) rfl) trace23
    (Step.acquire s3c 1 (by decide) rfl (by decide))

/-! ## Progress: the dispatch loop is never aborted -/

/-- An upper bound for the window entries (and the clock). -/
def wmax (w : List Int) (t : Int) : Int := w.foldr max t

theorem le_wmax_of_mem {w : List Int} {t x : Int} (hx : x ∈ w) :
    x ≤ wmax w t := by
  induction w with
  | nil => cases hx
  | cons a l ih =>
    rcases List.mem_cons.mp hx with rfl | hx
    · exact le_max_left _ _
    · exact le_trans (ih hx) (le_max_right _ _)

theorem self_le_wmax (w : List Int) (t : Int) : t ≤ wmax w t := by
  induction w with
  | nil => exact le_refl _
  | cons a l ih => exact le_trans ih (le_max_right _ _)

theorem prune_empty_after (w : List Int) (t : Int) :
    pruneWindow (wmax w t + windowDuration) w = [] := by
  rw [pruneWindow]
  refine List.filter_eq_nil_iff.mpr ?_
  intro a ha
  have := @le_wmax_of_mem w t a ha
  simp only [decide_eq_true_eq]
  omega

theorem wait_zero_of_pruned_empty {rpm now : Int} {w : List Int}
    (hrpm : 1 ≤ rpm) (he : pruneWindow now w = []) :
    (getTimeUntilNextSlot rpm now w).1 ≤ 0 := by
  show waitFor rpm now (pruneWindow now w) ≤ 0
  rw [he, waitFor, if_pos (by simp; omega)]

/-- From any invariant-respecting state, the dispatcher can drive every
remaining task to settlement: settle the in-flight tasks, flush the
admitted ones through the rate gate (advancing the clock far enough to
drain the window), and admit the queued ones one by one. -/
theorem progress_aux (cfg : BatchConfig) (hrpm : 1 ≤ cfg.rpm)
    (hmc : 1 ≤ cfg.maxConcurrent) :
    ∀ n : Nat, ∀ s : DState, Inv cfg s →
      4 * s.queue.length + 3 * s.admitted.length +
        2 * s.invoking.length ≤ n →
      ∃ ls s', Trace cfg s ls s' ∧ Final s' := by
  intro n
  induction n with
  | zero =>
    intro s _hinv hm
    have hq : s.queue = [] := List.length_eq_zero.mp (by omega)
    have ha : s.admitted = [] := List.length_eq_zero.mp (by omega)
    have hi : s.invoking = [] := List.length_eq_zero.mp (by omega)
    exact ⟨[], s, Trace.nil s, hq, ha, hi⟩
  | succ n ih =>
    intro s hinv hm
    cases hI : s.invoking with
    | cons i rest =>
      have hmem : i ∈ s.invoking := by
        rw [hI]; exact List.mem_cons_self _ _
      have heq : s.invoking.erase i = rest := by
        rw [hI]; exact List.erase_cons_head _ _
      rw [hI] at hm
      simp only [List.length_cons] at hm
      cases hfn : cfg.fn i with
      | ok v =>
        have hstep := @Step.settleOk cfg s i v hmem hfn
        obtain ⟨ls, s', htr, hfin⟩ := ih _ (inv_step hinv hstep) (by
          show 4 * s.queue.length + 3 * s.admitted.length +
            2 * (s.invoking.erase i).length ≤ n
          rw [heq]; omega)
        exact ⟨.settle i :: ls, s', Trace.cons _ hstep htr, hfin⟩
      | fail e =>
        have hstep := @Step.settleErr cfg s i e hmem hfn
        obtain ⟨ls, s', htr, hfin⟩ := ih _ (inv_step hinv hstep) (by
          show 4 * s.queue.length + 3 * s.admitted.length +
            2 * (s.invoking.erase i).length ≤ n
          rw [heq]; omega)
        exact ⟨.settle i :: ls, s', Trace.cons _ hstep htr, hfin⟩
    | nil =>
      cases hA : s.admitted with
      | cons i rest =>
        have hmem : i ∈ s.admitted := by
          rw [hA]; exact List.mem_cons_self _ _
        have heq : s.admitted.erase i = rest := by
          rw [hA]; exact List.erase_cons_head _ _
        rw [hA] at hm
        simp only [List.length_cons] at hm
        cases hargs : cfg.argsOk i with
        | false =>
          have hstep := @Step.badArgs cfg s i hmem hargs
          obtain ⟨ls, s', htr, hfin⟩ := ih _ (inv_step hinv hstep) (by
            show 4 * s.queue.length + 3 * (s.admitted.erase i).length +
              2 * s.invoking.length ≤ n
            rw [heq]; omega)
          exact ⟨.badArgs i :: ls, s', Trace.cons _ hstep htr, hfin⟩
        | true =>
          have hd : 0 < wmax s.window s.time + windowDuration - s.time := by
            have := self_le_wmax s.window s.time
            have hwd : windowDuration = 60000 := rfl
            omega
          have hstep1 := @Step.tick cfg s
            (wmax s.window s.time + windowDuration - s.time) hd
          have hempty : pruneWindow
              (s.time + (wmax s.window s.time + windowDuration - s.time))
              s.window = [] := by
            have harg : s.time +
                (wmax s.window s.time + windowDuration - s.time) =
                wmax s.window s.time + windowDuration := by omega
            rw [harg]
            exact prune_empty_after s.window s.time
          have hw2 := wait_zero_of_pruned_empty hrpm hempty
          have hstep2 := @Step.acquire cfg
            { s with time := s.time +
                (wmax s.window s.time + windowDuration - s.time) }
            i hmem hargs hw2
          obtain ⟨ls, s', htr, hfin⟩ :=
            ih _ (inv_step (inv_step hinv hstep1) hstep2) (by
              show 4 * s.queue.length + 3 * (s.admitted.erase i).length +
                2 * (i :: s.invoking).length ≤ n
              rw [heq, hI]
              simp only [List.length_cons, List.length_nil]
              omega)
          exact ⟨.tick _ :: .acquire i :: ls, s',
            Trace.cons _ hstep1 (Trace.cons _ hstep2 htr), hfin⟩
      | nil =>
        cases hQ : s.queue with
        | nil => exact ⟨[], s, Trace.nil s, hQ, hA, hI⟩
        | cons i rest =>
          have hact : s.active = 0 := by
            rw [hinv.activeEq, hA, hI]
            simp
          rw [hQ] at hm
          simp only [List.length_cons] at hm
          have hd : 0 < wmax s.window s.time + windowDuration - s.time := by
            have := self_le_wmax s.window s.time
            have hwd : windowDuration = 60000 := rfl
            omega
          have hstep1 := @Step.tick cfg s
            (wmax s.window s.time + windowDuration - s.time) hd
          have hempty : pruneWindow
              (s.time + (wmax s.window s.time + windowDuration - s.time))
              s.window = [] := by
            have harg : s.time +
                (wmax s.window s.time + windowDuration - s.time) =
                wmax s.window s.time + windowDuration := by omega
            rw [harg]
            exact prune_empty_after s.window s.time
          have hw2 := wait_zero_of_pruned_empty hrpm hempty
          have hstep2 := @Step.admitTask cfg
            { s with time := s.time +
                (wmax s.window s.time + windowDuration - s.time) }
            i rest hQ (by show s.active < cfg.maxConcurrent; omega) hw2
          obtain ⟨ls, s', htr, hfin⟩ :=
            ih _ (inv_step (inv_step hinv hstep1) hstep2) (by
              show 4 * rest.length + 3 * (s.admitted ++ [i]).length +
                2 * s.invoking.length ≤ n
              rw [hA, hI]
              simp only [List.length_cons, List.length_nil,
                List.length_append, List.nil_append]
              omega)
          exact ⟨.tick _ :: .admitTask i :: ls, s',
            Trace.cons _ hstep1 (Trace.cons _ hstep2 htr), hfin⟩

/-- C4: a task rejection never aborts the batch: from every reachable
state of a run (with positive `rpm` and `maxConcurrent`), the dispatcher
can always drive every remaining task to settlement; the completed batch
then holds a full, index-aligned results array in which every rejecting
task's error is recorded — wrapped as `{ error }` — at that task's own
index, with every other task's outcome intact, and the call returns this
array instead of rejecting. -/
theorem failure_isolation {cfg : BatchConfig} {t0 : Int} {s : DState}
    (hrpm : 1 ≤ cfg.rpm) (hmc : 1 ≤ cfg.maxConcurrent)
    (h : Reachable cfg (initState cfg t0) s) :
    ∃ ls s', Trace cfg s ls s' ∧ Final s' ∧
      s'.results.length = cfg.numTasks ∧
      (∀ i < cfg.numTasks, resultAt s' i = some (expectedResult cfg i)) ∧
      (∀ i < cfg.numTasks, ∀ e, cfg.argsOk i = true → cfg.fn i = .fail e →
        resultAt s' i = some (errWrap e.raw)) := by
  obtain ⟨ls0, htr0⟩ := h
  have hinv := inv_trace (inv_init cfg t0) htr0
  obtain ⟨ls, s', htr, hfin⟩ := progress_aux cfg hrpm hmc
    (4 * s.queue.length + 3 * s.admitted.length + 2 * s.invoking.length)
    s hinv (le_refl _)
  have hres := final_results_of_inv (inv_trace hinv htr) hfin
  refine ⟨ls, s', htr, hfin, hres.1, hres.2, ?_⟩
  intro i hlt e hok hf
  rw [hres.2 i hlt]
  simp [expectedResult, hok, hf, storeFailure]

/-- A plain (non-throttle) task error. -/
def ePlain : GError :=
  { status := none, errorDetails := none, raw := .vstr "boom" }

def cfgE : BatchConfig :=
  { rpm := 1
    maxConcurrent := 1
    numTasks := 2
    argsOk := fun _ => true
    fn := fun i =>
      match i with
      | 0 => .fail ePlain
      | _ => .ok (.vnum 3) }

theorem failure_isolation_witness :
    ∃ ls s', Trace cfgE (initState cfgE 0) ls s' ∧ Final s' ∧
      s'.results.length = cfgE.numTasks ∧
      (∀ i < cfgE.numTasks, resultAt s' i = some (expectedResult cfgE i)) ∧
      (∀ i < cfgE.numTasks, ∀ e, cfgE.argsOk i = true →
        cfgE.fn i = .fail e → resultAt s' i = some (errWrap e.raw)) :=
  failure_isolation (by decide) (by decide) ⟨[], Trace.nil _⟩

/-! ## The fixed 60 s bucket variant from the source lineage -/

/-- State of the fixed-bucket rate limiter of the older
`rpmControlledBatch` (`src/unnamed/part_000` lines 349–367):
`requestsInWindow` counted against a bucket anchored at
`windowStartTime`, plus the ghost list of start instants. -/
structure FBState where
  time : Int
  windowStart : Int
  reqInWindow : Int
  starts : List Int

/-- `windowStartTime = Date.now()` at call time, zero requests. -/
def fbInit (t0 : Int) : FBState :=
  { time := t0, windowStart := t0, reqInWindow := 0, starts := [] }

/-- The rate-limiting prologue of the fixed-bucket `executeTask`:
* if a full `windowDuration` elapsed, reset the bucket and count the
  start in the fresh bucket (`startReset`);
* else if the bucket still has room, count the start (`startOk`);
* else sleep until the bucket's end, reset, and count the start there
  (`startAfterWait`). -/
inductive FBStep (rpm : Int) : FBState → FBState → Prop where
  | tick (s : FBState) (d : Int) (hd : 0 < d) :
      FBStep rpm s { s with time := s.time + d }
  | startReset (s : FBState)
      (hfull : windowDuration ≤ s.time - s.windowStart) :
      FBStep rpm s
        { s with windowStart := s.time
                 reqInWindow := 1
                 starts := s.starts ++ [s.time] }
  | startOk (s : FBState)
      (hin : s.time - s.windowStart < windowDuration)
      (hcnt : s.reqInWindow < rpm) :
      FBStep rpm s
        { s with reqInWindow := s.reqInWindow + 1
                 starts := s.starts ++ [s.time] }
  | startAfterWait (s : FBState)
      (hin : s.time - s.windowStart < windowDuration)
      (hcnt : rpm ≤ s.reqInWindow) :
      FBStep rpm s
        { time := s.windowStart + windowDuration
          windowStart := s.windowStart + windowDuration
          reqInWindow := 1
          starts := s.starts ++ [s.windowStart + windowDuration] }

inductive FBReach (rpm : Int) : FBState → FBState → Prop where
  | refl (s : FBState) : FBReach rpm s s
  | head {s s' s'' : FBState} (h1 : FBStep rpm s s')
      (h2 : FBReach rpm s' s'') : FBReach rpm s s''

theorem fbReach_trans {rpm : Int} {s1 s2 s3 : FBState}
    (h12 : FBReach rpm s1 s2) (h23 : FBReach rpm s2 s3) :
    FBReach rpm s1 s3 := by
  induction h12 with
  | refl => exact h23
  | head h1 _h2 ih => exact FBReach.head h1 (ih h23)

/-- Within one bucket, `k` further starts are possible while the counter
stays below `rpm`. -/
theorem fb_repeat {rpm : Int} (t ws : Int)
    (hin : t - ws < windowDuration) :
    ∀ (k : Nat) (req0 : Int) (starts0 : List Int), req0 + k ≤ rpm →
      FBReach rpm ⟨t, ws, req0, starts0⟩
        ⟨t, ws, req0 + k, starts0 ++ List.replicate k t⟩ := by
  intro k
  induction k with
  | zero =>
    intro req0 starts0 _
    simpa using FBReach.refl (⟨t, ws, req0, starts0⟩ : FBState)
  | succ m ih =>
    intro req0 starts0 hle
    have hstep := @FBStep.startOk rpm ⟨t, ws, req0, starts0⟩ hin
      (by show req0 < rpm; push_cast at hle; omega)
    have hrest := ih (req0 + 1) (starts0 ++ [t])
      (by push_cast at hle ⊢; omega)
    have hfinal : (starts0 ++ [t]) ++ List.replicate m t =
        starts0 ++ List.replicate (m + 1) t := by
      rw [List.append_assoc]
      congr 1
    have hreq : req0 + 1 + (m : Int) = req0 + ((m + 1 : Nat) : Int) := by
      push_cast
      omega
    refine FBReach.head hstep ?_
    rw [← hreq, ← hfinal]
    exact hrest

theorem countP_replicate_of_pos {p : Int → Bool} {b : Int}
    (hp : p b = true) (m : Nat) :
    List.countP p (List.replicate m b) = m := by
  induction m with
  | zero => rfl
  | succ k ih => simp [List.replicate_succ, List.countP_cons, hp, ih]

/-- The burst schedule: `rpm` starts just before a bucket boundary, a
reset, and `rpm` further starts just after it — all inside one trailing
60 s interval. -/
theorem fixed_bucket_burst_reach (n : Nat) (hn : 1 ≤ n) :
    ∃ sF, FBReach (n : Int) (fbInit 0) sF ∧
      (countStartsIn sF.starts 60000 : Int) = 2 * n := by
  have h1 : FBStep (n : Int) (fbInit 0) ⟨1, 0, 0, []⟩ :=
    FBStep.tick (fbInit 0) 1 (by decide)
  have r1 : FBReach (n : Int) ⟨1, 0, 0, []⟩
      ⟨1, 0, 0 + (n : Int), [] ++ List.replicate n 1⟩ :=
    fb_repeat 1 0 (by decide) n 0 [] (by omega)
  have st2 : FBStep (n : Int) ⟨1, 0, 0 + (n : Int), [] ++ List.replicate n 1⟩
      ⟨1 + 59999, 0, 0 + (n : Int), [] ++ List.replicate n 1⟩ :=
    FBStep.tick _ 59999 (by decide)
  have st3 : FBStep (n : Int)
      ⟨1 + 59999, 0, 0 + (n : Int), [] ++ List.replicate n 1⟩
      ⟨1 + 59999, 1 + 59999, 1, ([] ++ List.replicate n 1) ++ [1 + 59999]⟩ :=
    FBStep.startReset _ (by show windowDuration ≤ 1 + 59999 - 0; decide)
  have r4 : FBReach (n : Int)
      ⟨1 + 59999, 1 + 59999, 1, ([] ++ List.replicate n 1) ++ [1 + 59999]⟩
      ⟨1 + 59999, 1 + 59999, 1 + ((n - 1 : Nat) : Int),
        (([] ++ List.replicate n 1) ++ [1 + 59999]) ++
          List.replicate (n - 1) (1 + 59999)⟩ :=
    fb_repeat (1 + 59999) (1 + 59999) (by decide) (n - 1) 1 _ (by omega)
  refine ⟨⟨1 + 59999, 1 + 59999, 1 + ((n - 1 : Nat) : Int),
    (([] ++ List.replicate n 1) ++ [1 + 59999]) ++
      List.replicate (n - 1) (1 + 59999)⟩,
    FBReach.head h1 (fbReach_trans r1
      (FBReach.head st2 (FBReach.head st3 r4))), ?_⟩
  show (List.countP _ _ : Int) = 2 * n
  rw [List.countP_append, List.countP_append, List.countP_append]
  rw [countP_replicate_of_pos (by decide) n,
    countP_replicate_of_pos (by decide) (n - 1)]
  have hone : List.countP
      (fun x => decide ((60000 : Int) - x < windowDuration) &&
        decide (x ≤ (60000 : Int))) [1 + 59999] = 1 := by decide
  rw [hone]
  simp only [List.countP_nil]
  push_cast [Nat.cast_sub hn]
  omega

/-- C9: the fixed-window-bucket variant of `rpmControlledBatch` is a
strictly weaker rate limiter than the sliding-window variant: for every
`rpm ≥ 1` some schedule of the fixed-bucket limiter performs `2·rpm`
invocation starts inside a single trailing 60-second interval (a burst
straddling a bucket boundary), whereas the sliding-window variant never
exceeds `rpm` starts in any trailing 60-second interval. -/
theorem fixed_bucket_weaker_than_sliding (n : Nat) (hn : 1 ≤ n) :
    (∃ sF, FBReach (n : Int) (fbInit 0) sF ∧
      (countStartsIn sF.starts 60000 : Int) = 2 * n) ∧
      (∀ (cfg : BatchConfig) (t0 : Int) (s : DState) (T : Int),
        cfg.rpm = (n : Int) → Reachable cfg (initState cfg t0) s →
        (countStartsIn s.starts T : Int) ≤ (n : Int)) := by
  refine ⟨fixed_bucket_burst_reach n hn, ?_⟩
  intro cfg t0 s T hr hreach
  obtain ⟨ls, htr⟩ := hreach
  have hrpm : 1 ≤ cfg.rpm := by
    rw [hr]
    exact_mod_cast hn
  have hinv := rateInv_trace hrpm (rateInv_init cfg t0) htr
  have hbnd := countStartsIn_le_of_bounded (by omega) hinv.bounded T
  rw [hr] at hbnd
  exact hbnd

theorem fixed_bucket_weaker_than_sliding_witness :
    (∃ sF, FBReach ((2 : Nat) : Int) (fbInit 0) sF ∧
      (countStartsIn sF.starts 60000 : Int) = 2 * (2 : Nat)) ∧
      (∀ (cfg : BatchConfig) (t0 : Int) (s : DState) (T : Int),
        cfg.rpm = ((2 : Nat) : Int) → Reachable cfg (initState cfg t0) s →
        (countStartsIn s.starts T : Int) ≤ ((2 : Nat) : Int)) :=
  fixed_bucket_weaker_than_sliding 2 (by decide)

end RpmBatch
